import Mathlib

/-!
Verification of the RTL bit-vector expression simplifier
(`lib/Dialect/RTL/Ops.cpp`): constant folds, canonicalization rewrite
patterns and structural verifiers for the variadic operations
AND/OR/XOR/ADD/MUL, plus EXTRACT and the sign/zero extension checks.

Expressions are modelled as a value-numbered term graph: structurally
identical terms denote the same node (the repository keeps expressions
in a value-numbering arena, so node identity coincides with structural
identity).  Machine integers of width `w` are modelled as `Nat` with
explicit reduction modulo `2 ^ w` where the C++ `APInt` arithmetic wraps.
-/

namespace RTL

/-- The five variadic opcodes of the RTL dialect simplifier. -/
inductive VOp : Type where
  | and : VOp
  | or : VOp
  | xor : VOp
  | add : VOp
  | mul : VOp
deriving DecidableEq

/-- Expression nodes: constants (`rtl.constant` with an `APInt` payload,
modelled as a `Nat` value), opaque wires (block arguments or nodes the
simplifier does not inspect), left shifts (`rtl.shl`) and variadic
applications of the five opcodes. -/
inductive Expr : Type where
  | const : Nat → Expr
  | wire : Nat → Expr
  | shl : Expr → Expr → Expr
  | vop : VOp → List Expr → Expr

mutual

/-- Decidable structural equality on expressions (node identity in the
value-numbering arena). -/
def decEqExpr : (a b : Expr) → Decidable (a = b)
  | .const v, .const v2 =>
    match Nat.decEq v v2 with
    | isTrue h => isTrue (h ▸ rfl)
    | isFalse h => isFalse fun he => h (by cases he; rfl)
  | .wire v, .wire v2 =>
    match Nat.decEq v v2 with
    | isTrue h => isTrue (h ▸ rfl)
    | isFalse h => isFalse fun he => h (by cases he; rfl)
  | .shl a b, .shl c d =>
    match decEqExpr a c, decEqExpr b d with
    | isTrue h1, isTrue h2 => isTrue (by rw [h1, h2])
    | isFalse h1, _ => isFalse fun he => h1 (by cases he; rfl)
    | _, isFalse h2 => isFalse fun he => h2 (by cases he; rfl)
  | .vop o1 l1, .vop o2 l2 =>
    match instDecidableEqVOp o1 o2, decEqExprList l1 l2 with
    | isTrue h1, isTrue h2 => isTrue (by rw [h1, h2])
    | isFalse h1, _ => isFalse fun he => h1 (by cases he; rfl)
    | _, isFalse h2 => isFalse fun he => h2 (by cases he; rfl)
  | .const _, .wire _ => isFalse fun h => Expr.noConfusion h
  | .const _, .shl _ _ => isFalse fun h => Expr.noConfusion h
  | .const _, .vop _ _ => isFalse fun h => Expr.noConfusion h
  | .wire _, .const _ => isFalse fun h => Expr.noConfusion h
  | .wire _, .shl _ _ => isFalse fun h => Expr.noConfusion h
  | .wire _, .vop _ _ => isFalse fun h => Expr.noConfusion h
  | .shl _ _, .const _ => isFalse fun h => Expr.noConfusion h
  | .shl _ _, .wire _ => isFalse fun h => Expr.noConfusion h
  | .shl _ _, .vop _ _ => isFalse fun h => Expr.noConfusion h
  | .vop _ _, .const _ => isFalse fun h => Expr.noConfusion h
  | .vop _ _, .wire _ => isFalse fun h => Expr.noConfusion h
  | .vop _ _, .shl _ _ => isFalse fun h => Expr.noConfusion h

/-- Decidable equality on operand lists. -/
def decEqExprList : (as bs : List Expr) → Decidable (as = bs)
  | [], [] => isTrue rfl
  | [], _ :: _ => isFalse fun h => List.noConfusion h
  | _ :: _, [] => isFalse fun h => List.noConfusion h
  | a :: as, b :: bs =>
    match decEqExpr a b, decEqExprList as bs with
    | isTrue h1, isTrue h2 => isTrue (by rw [h1, h2])
    | isFalse h1, _ => isFalse fun he => h1 (by cases he; rfl)
    | _, isFalse h2 => isFalse fun he => h2 (by cases he; rfl)

end

instance : DecidableEq Expr := decEqExpr

/-- `matchPattern(v, m_RConstant(value))`: succeeds exactly on constant
nodes, returning the payload. -/
def isConst : Expr → Option Nat
  | .const v => some v
  | _ => none

/-- `APInt::isAllOnesValue` for width `w`. -/
def allOnes (w : Nat) : Nat := 2 ^ w - 1

/-- `APInt::isPowerOf2`: nonzero with exactly one bit set. -/
def isPow2 (v : Nat) : Bool := v != 0 && 2 ^ Nat.log2 v == v

/-- Views an expression as an application of opcode `op`
(`getDefiningOp<Op>()`), yielding its operand list. -/
def asOp (op : VOp) : Expr → Option (List Expr)
  | .vop o l => if o = op then some l else none
  | _ => none

/-- `tryFlatteningOperands`: finds the first operand that has one use and
is itself an application of the same opcode, and splices that operand's
own operand list in its place, preserving relative order.  `ou` is the
host's `hasOneUse` predicate. -/
def tryFlattening (op : VOp) (ou : Expr → Bool) : List Expr → Option (List Expr)
  | [] => none
  | x :: rest =>
    if ou x then
      match asOp op x with
      | some xs => some (xs ++ rest)
      | none => (tryFlattening op ou rest).map (x :: ·)
    else
      (tryFlattening op ou rest).map (x :: ·)

/-- Splits a list into its front and last two elements
(`inputs[size-2]`, `inputs[size-1]`); `none` when fewer than two. -/
def last2 (l : List Expr) : Option (List Expr × Expr × Expr) :=
  match l.reverse with
  | b :: a :: rest => some (rest.reverse, a, b)
  | _ => none

/-! ## Fold methods (`OpFoldResult <Op>::fold`)

A fold returns `some e` when the operation folds to the existing node or
constant `e`, and `none` ("no result produced") otherwise. -/

/-- `AndOp::fold`: single-operand noop, then annulment on a trailing
constant zero. -/
def andFold (l : List Expr) : Option Expr :=
  if l.length = 1 then l.head?
  else
    match l.getLast? with
    | some e =>
      match isConst e with
      | some v => if v = 0 then some e else none
      | none => none
    | none => none

/-- `OrOp::fold`: single-operand noop, then annulment on a trailing
all-ones constant. -/
def orFold (w : Nat) (l : List Expr) : Option Expr :=
  if l.length = 1 then l.head?
  else
    match l.getLast? with
    | some e =>
      match isConst e with
      | some v => if v = allOnes w then some e else none
      | none => none
    | none => none

/-- `XorOp::fold`: single-operand noop, then `xor(x, x) -> 0` when there
are exactly two operands and they are the same node. -/
def xorFold (l : List Expr) : Option Expr :=
  if l.length = 1 then l.head?
  else if l.length = 2 ∧ l.head? = l.getLast? then some (Expr.const 0)
  else none

/-- `AddOp::fold`: single-operand noop only. -/
def addFold (l : List Expr) : Option Expr :=
  if l.length = 1 then l.head? else none

/-- `MulOp::fold`: single-operand noop, then annulment on a trailing
constant zero. -/
def mulFold (l : List Expr) : Option Expr :=
  if l.length = 1 then l.head?
  else
    match l.getLast? with
    | some e =>
      match isConst e with
      | some v => if v = 0 then some e else none
      | none => none
    | none => none

/-! ## Canonicalization patterns (`<Op>::getCanonicalizationPatterns`)

Each `matchAndRewrite` is modelled as a function from the operand list to
`none` (`return failure()`, node unchanged) or `some l'` (the node is
replaced by a new node of the same opcode and result type with operand
list `l'`).  The `Core` variants take the decomposition
`l = front ++ [a, b]` produced by `last2`. -/

/-- `AndOp` pattern: identity (`'1`), idempotence, constant pair,
flattening — in source order. -/
def andRewriteCore (w : Nat) (ou : Expr → Bool) (l front : List Expr)
    (a b : Expr) : Option (List Expr) :=
  if isConst b = some (allOnes w) then some (front ++ [a])
  else if a = b then some (front ++ [a])
  else
    match isConst b, isConst a with
    | some v, some v2 => some (front ++ [Expr.const (v &&& v2)])
    | _, _ => tryFlattening .and ou l

def andRewrite (w : Nat) (ou : Expr → Bool) (l : List Expr) :
    Option (List Expr) :=
  match last2 l with
  | some (front, a, b) => andRewriteCore w ou l front a b
  | none => none

/-- `OrOp` pattern: identity (`0`), idempotence, constant pair,
flattening — in source order. -/
def orRewriteCore (w : Nat) (ou : Expr → Bool) (l front : List Expr)
    (a b : Expr) : Option (List Expr) :=
  if isConst b = some 0 then some (front ++ [a])
  else if a = b then some (front ++ [a])
  else
    match isConst b, isConst a with
    | some v, some v2 => some (front ++ [Expr.const (v ||| v2)])
    | _, _ => tryFlattening .or ou l

def orRewrite (w : Nat) (ou : Expr → Bool) (l : List Expr) :
    Option (List Expr) :=
  match last2 l with
  | some (front, a, b) => orRewriteCore w ou l front a b
  | none => none

/-- `XorOp` pattern: identity (`0`), idempotence dropping both copies,
constant pair, flattening — in source order. -/
def xorRewriteCore (w : Nat) (ou : Expr → Bool) (l front : List Expr)
    (a b : Expr) : Option (List Expr) :=
  if isConst b = some 0 then some (front ++ [a])
  else if a = b then some front
  else
    match isConst b, isConst a with
    | some v, some v2 => some (front ++ [Expr.const (v ^^^ v2)])
    | _, _ => tryFlattening .xor ou l

def xorRewrite (w : Nat) (ou : Expr → Bool) (l : List Expr) :
    Option (List Expr) :=
  match last2 l with
  | some (front, a, b) => xorRewriteCore w ou l front a b
  | none => none

/-- `AddOp` pattern, in source order: identity (`0`), constant pair,
idempotence (`x + x -> shl(x, 1)`), `x + shl(x, c)`, `x + mul(x, c)`,
flattening. -/
def addRewriteCore (w : Nat) (ou : Expr → Bool) (l front : List Expr)
    (a b : Expr) : Option (List Expr) :=
  if isConst b = some 0 then some (front ++ [a])
  else
    match isConst b, isConst a with
    | some v, some v2 => some (front ++ [Expr.const ((v + v2) % 2 ^ w)])
    | _, _ =>
      if a = b then some (front ++ [Expr.shl b (Expr.const 1)])
      else
        match b with
        | Expr.shl x c =>
          match isConst c with
          | some v =>
            if x = a then
              some (front ++ [Expr.vop .mul [x, Expr.const ((1 <<< v + 1) % 2 ^ w)]])
            else tryFlattening .add ou l
          | none => tryFlattening .add ou l
        | Expr.vop VOp.mul [x, c] =>
          match isConst c with
          | some v =>
            if x = a then
              some (front ++ [Expr.vop .mul [x, Expr.const ((v + 1) % 2 ^ w)]])
            else tryFlattening .add ou l
          | none => tryFlattening .add ou l
        | _ => tryFlattening .add ou l

def addRewrite (w : Nat) (ou : Expr → Bool) (l : List Expr) :
    Option (List Expr) :=
  match last2 l with
  | some (front, a, b) => addRewriteCore w ou l front a b
  | none => none

/-- `MulOp` pattern, in source order: two-operand power-of-two multiply
(`mul(x, 2^k) -> mul(shl(x, k))`), identity (`1`), constant pair,
flattening. -/
def mulRewriteCore (w : Nat) (ou : Expr → Bool) (l front : List Expr)
    (a b : Expr) : Option (List Expr) :=
  match isConst b with
  | some v =>
    if front.isEmpty && isPow2 v then
      some [Expr.shl a (Expr.const (Nat.log2 v))]
    else if v = 1 then some (front ++ [a])
    else
      match isConst a with
      | some v2 => some (front ++ [Expr.const ((v * v2) % 2 ^ w)])
      | none => tryFlattening .mul ou l
  | none => tryFlattening .mul ou l

def mulRewrite (w : Nat) (ou : Expr → Bool) (l : List Expr) :
    Option (List Expr) :=
  match last2 l with
  | some (front, a, b) => mulRewriteCore w ou l front a b
  | none => none

/-- Dispatch of the per-opcode fold methods. -/
def vopFold (w : Nat) : VOp → List Expr → Option Expr
  | .and => andFold
  | .or => orFold w
  | .xor => xorFold
  | .add => addFold
  | .mul => mulFold

/-- Dispatch of the per-opcode rewrite patterns. -/
def vopRewrite (w : Nat) (ou : Expr → Bool) : VOp → List Expr → Option (List Expr)
  | .and => andRewrite w ou
  | .or => orRewrite w ou
  | .xor => xorRewrite w ou
  | .add => addRewrite w ou
  | .mul => mulRewrite w ou

/-- Result of one simplifier invocation on a node: folded to an existing
node or constant, or rewritten to a new operand list. -/
inductive SimpResult : Type where
  | folded : Expr → SimpResult
  | rewritten : List Expr → SimpResult
deriving DecidableEq

/-- Modelled from the spec: the host canonicalization driver tries the
operation's `fold` first and falls through to the registered rewrite
pattern only when the fold produces no result. -/
def simplifyStep (w : Nat) (ou : Expr → Bool) (op : VOp) (l : List Expr) :
    Option SimpResult :=
  match vopFold w op l with
  | some e => some (.folded e)
  | none => (vopRewrite w ou op l).map .rewritten

/-! ## Structural verifiers and the EXTRACT fold -/

/-- `verifyExtOp` (for `SExtOp`/`ZExtOp`): the source width must be
strictly smaller than the destination width; otherwise a recoverable
diagnostic is returned. -/
def verifyExtOp (srcW dstW : Nat) : Except String Unit :=
  if srcW ≥ dstW then .error "extension must increase bitwidth of operand"
  else .ok ()

/-- `verifyExtractOp`: `lowBit` must be in range and the selected bit
range must fit in the source width; otherwise a recoverable diagnostic is
returned.  The subtraction is the C++ unsigned subtraction, guarded by
the first disjunct exactly as in the source. -/
def verifyExtractOp (srcW dstW lowBit : Nat) : Except String Unit :=
  if lowBit ≥ srcW ∨ srcW - lowBit < dstW then
    .error "from bit too large for input"
  else .ok ()

/-- `ExtractOp::fold`: full-width extraction returns the input (type
equality test only); a constant input folds to the shifted/truncated
constant. -/
def extractFold (srcW dstW lowBit : Nat) (input : Expr) : Option Expr :=
  if srcW = dstW then some input
  else
    match isConst input with
    | some v => some (Expr.const ((v >>> lowBit) % 2 ^ dstW))
    | none => none

/-! ## Termination measure

Weighted node size: every node costs 1, every operand slot of an ADD
(resp. MUL, bitwise) node costs 4 (resp. 2, 1) extra.  Every fold and
every rewrite of the simplifier strictly decreases this measure. -/

/-- Per-operand weight of a variadic node in the termination measure. -/
def VOp.wt : VOp → Nat
  | .add => 4
  | .mul => 2
  | _ => 1

mutual

/-- Weighted size of an expression. -/
def msize : Expr → Nat
  | .const _ => 1
  | .wire _ => 1
  | .shl a b => msize a + msize b + 1
  | .vop op l => msizeL l + VOp.wt op * l.length + 1

/-- Weighted size of an operand list. -/
def msizeL : List Expr → Nat
  | [] => 0
  | x :: xs => msize x + msizeL xs

end

theorem wt_pos (op : VOp) : 1 ≤ op.wt := by cases op <;> simp [VOp.wt]

theorem msize_pos (e : Expr) : 1 ≤ msize e := by
  cases e <;> simp [msize]

theorem msizeL_append (l1 l2 : List Expr) :
    msizeL (l1 ++ l2) = msizeL l1 + msizeL l2 := by
  induction l1 with
  | nil => simp [msizeL]
  | cons x xs ih => simp [msizeL, ih]; omega

theorem msizeL_pos {l : List Expr} (h : l ≠ []) : 1 ≤ msizeL l := by
  cases l with
  | nil => exact absurd rfl h
  | cons x xs => have := msize_pos x; simp [msizeL]; omega

theorem length_le_msizeL (l : List Expr) : l.length ≤ msizeL l := by
  induction l with
  | nil => simp [msizeL]
  | cons x xs ih => have := msize_pos x; simp [msizeL]; omega

/-- No expression is a strict subterm of itself via `shl`. -/
theorem ne_shl_self (x c : Expr) : Expr.shl x c ≠ x := by
  intro h
  have h2 := congrArg msize h
  simp only [msize] at h2
  have := msize_pos c
  omega

/-- No expression equals a two-operand `mul` having it as first factor. -/
theorem ne_mul_self (x c : Expr) : Expr.vop .mul [x, c] ≠ x := by
  intro h
  have h2 := congrArg msize h
  simp only [msize, msizeL] at h2
  have := msize_pos c
  omega

theorem last2_append (front : List Expr) (a b : Expr) :
    last2 (front ++ [a, b]) = some (front, a, b) := by
  have : (front ++ [a, b]).reverse = b :: a :: front.reverse := by simp
  simp [last2, this]

theorem last2_eq_some {l front : List Expr} {a b : Expr}
    (h : last2 l = some (front, a, b)) : l = front ++ [a, b] := by
  unfold last2 at h
  match hr : l.reverse with
  | [] => rw [hr] at h; simp at h
  | [x] => rw [hr] at h; simp at h
  | y :: x :: rest =>
    rw [hr] at h
    simp at h
    obtain ⟨h1, h2, h3⟩ := h
    have : l = (y :: x :: rest).reverse := by
      rw [← hr, List.reverse_reverse]
    subst h1 h2 h3
    simpa using this

/-- All-false `hasOneUse` oracle, used for concrete instances. -/
def ouFalse : Expr → Bool := fun _ => false

theorem tryFlattening_false (op : VOp) (l : List Expr) :
    tryFlattening op ouFalse l = none := by
  induction l with
  | nil => rfl
  | cons x xs ih => simp [tryFlattening, ouFalse, ih]

theorem asOp_eq_some {op : VOp} {x : Expr} {xs : List Expr}
    (h : asOp op x = some xs) : x = .vop op xs := by
  cases x with
  | vop o l =>
    by_cases ho : o = op <;> simp [asOp, ho] at h
    subst ho; rw [h]
  | const v => simp [asOp] at h
  | wire v => simp [asOp] at h
  | shl a b => simp [asOp] at h

/-- C1: whenever the constant-pair folding rule of the AND/OR/XOR/ADD/MUL
rewrite pattern fires on trailing constants `c1, c2` (the earlier rules of
the same pattern not matching), it replaces the pair with the single
constant `c1 OP c2`, computed exactly for the bitwise opcodes and modulo
`2 ^ w` (wraparound, no overflow signal) for ADD and MUL. -/
theorem constant_pair_folding (w : Nat) (ou : Expr → Bool) (front : List Expr)
    (v1 v2 : Nat) :
    (v2 ≠ allOnes w → v1 ≠ v2 →
      andRewrite w ou (front ++ [.const v1, .const v2]) =
        some (front ++ [.const (v2 &&& v1)])) ∧
    (v2 ≠ 0 → v1 ≠ v2 →
      orRewrite w ou (front ++ [.const v1, .const v2]) =
        some (front ++ [.const (v2 ||| v1)])) ∧
    (v2 ≠ 0 → v1 ≠ v2 →
      xorRewrite w ou (front ++ [.const v1, .const v2]) =
        some (front ++ [.const (v2 ^^^ v1)])) ∧
    (v2 ≠ 0 →
      addRewrite w ou (front ++ [.const v1, .const v2]) =
        some (front ++ [.const ((v2 + v1) % 2 ^ w)])) ∧
    ((front ≠ [] ∨ isPow2 v2 = false) → v2 ≠ 1 →
      mulRewrite w ou (front ++ [.const v1, .const v2]) =
        some (front ++ [.const ((v2 * v1) % 2 ^ w)])) := by
  refine ⟨?_, ?_, ?_, ?_, ?_⟩
  · intro h1 h2
    simp [andRewrite, last2_append, andRewriteCore, isConst, h1, h2]
  · intro h1 h2
    simp [orRewrite, last2_append, orRewriteCore, isConst, h1, h2]
  · intro h1 h2
    simp [xorRewrite, last2_append, xorRewriteCore, isConst, h1, h2]
  · intro h1
    simp [addRewrite, last2_append, addRewriteCore, isConst, h1]
  · intro h1 h2
    rcases h1 with h1 | h1
    · have hne : front.isEmpty = false := by
        cases front with
        | nil => exact absurd rfl h1
        | cons x xs => rfl
      simp [mulRewrite, last2_append, mulRewriteCore, isConst, hne, h2]
    · simp [mulRewrite, last2_append, mulRewriteCore, isConst, h1, h2]

theorem constant_pair_folding_witness :
    andRewrite 8 ouFalse [.wire 0, .const 6, .const 5] = some [.wire 0, .const 4] ∧
    orRewrite 8 ouFalse [.wire 0, .const 6, .const 5] = some [.wire 0, .const 7] ∧
    xorRewrite 8 ouFalse [.wire 0, .const 6, .const 5] = some [.wire 0, .const 3] ∧
    addRewrite 8 ouFalse [.wire 0, .const 6, .const 5] = some [.wire 0, .const 11] ∧
    mulRewrite 8 ouFalse [.wire 0, .const 6, .const 5] = some [.wire 0, .const 30] :=
  have h := constant_pair_folding 8 ouFalse [.wire 0] 6 5
  ⟨h.1 (by decide) (by decide), h.2.1 (by decide) (by decide),
   h.2.2.1 (by decide) (by decide), h.2.2.2.1 (by decide),
   h.2.2.2.2 (Or.inl (by decide)) (by decide)⟩

/-- C2 counterexample: for an ADD whose last two operands are the same
constant node (`3` of width 8), the source checks constant-pair folding
before idempotence, so the pair folds to the constant `6`; the claimed
idempotence outcome `shl(3, 1)` is not produced. -/
theorem add_order_cex :
    addRewrite 8 ouFalse [.wire 0, .const 3, .const 3] = some [.wire 0, .const 6] ∧
    addRewrite 8 ouFalse [.wire 0, .const 3, .const 3] ≠
      some [.wire 0, .shl (.const 3) (.const 1)] := by
  exact ⟨by decide, by decide⟩

/-- C2 (amended): AND/OR/XOR try identity elimination, idempotence,
constant-pair folding, flattening in that order, so idempotence beats
constant-pair folding on a repeated trailing constant; ADD tries identity
elimination, constant-pair folding, idempotence (then its two specific
rules, then flattening), so a repeated trailing constant is folded to a
single constant rather than rewritten to a shift; MUL has no idempotence
rule at all, and a rewrite invocation in which no rule matches reports
failure, leaving the node unchanged. -/
theorem rewrite_rule_order (w : Nat) (ou : Expr → Bool) (front : List Expr)
    (c : Nat) (hc0 : c ≠ 0) (hcA : c ≠ allOnes w) :
    andRewrite w ou (front ++ [.const c, .const c]) = some (front ++ [.const c]) ∧
    orRewrite w ou (front ++ [.const c, .const c]) = some (front ++ [.const c]) ∧
    xorRewrite w ou (front ++ [.const c, .const c]) = some front ∧
    addRewrite w ou (front ++ [.const c, .const c]) =
      some (front ++ [.const ((c + c) % 2 ^ w)]) ∧
    mulRewrite 8 ouFalse [.wire 0, .wire 1, .wire 1] = none ∧
    andRewrite 8 ouFalse [.wire 0, .wire 1] = none := by
  refine ⟨?_, ?_, ?_, ?_, by decide, by decide⟩
  · simp [andRewrite, last2_append, andRewriteCore, isConst, hcA]
  · simp [orRewrite, last2_append, orRewriteCore, isConst, hc0]
  · simp [xorRewrite, last2_append, xorRewriteCore, isConst, hc0]
  · simp [addRewrite, last2_append, addRewriteCore, isConst, hc0]

theorem rewrite_rule_order_witness :
    andRewrite 8 ouFalse [.wire 0, .const 3, .const 3] = some [.wire 0, .const 3] ∧
    xorRewrite 8 ouFalse [.wire 0, .const 3, .const 3] = some [.wire 0] :=
  have h := rewrite_rule_order 8 ouFalse [.wire 0] 3 (by decide) (by decide)
  ⟨h.1, h.2.2.1⟩

/-- C4: the annulment folds look only at the last operand: an AND or MUL
node of two or more operands whose last operand is the constant `0` folds
to that constant `0`, an OR node whose last operand is the all-ones
constant folds to all-ones, and whenever the last operand is not the
annulling constant the fold produces no result, regardless of constants
in any earlier position. -/
theorem annulment_folds (w : Nat) (front : List Expr) (hf : front ≠ []) :
    andFold (front ++ [.const 0]) = some (.const 0) ∧
    mulFold (front ++ [.const 0]) = some (.const 0) ∧
    orFold w (front ++ [.const (allOnes w)]) = some (.const (allOnes w)) ∧
    (∀ e, isConst e ≠ some 0 → andFold (front ++ [e]) = none) ∧
    (∀ e, isConst e ≠ some 0 → mulFold (front ++ [e]) = none) ∧
    (∀ e, isConst e ≠ some (allOnes w) → orFold w (front ++ [e]) = none) := by
  refine ⟨?_, ?_, ?_, ?_, ?_, ?_⟩
  · simp [andFold, hf, List.getLast?_concat, isConst]
  · simp [mulFold, hf, List.getLast?_concat, isConst]
  · simp [orFold, hf, List.getLast?_concat, isConst]
  · intro e he
    match hc : isConst e with
    | some v =>
      have hv : v ≠ 0 := by intro h; exact he (h ▸ hc)
      simp [andFold, hf, List.getLast?_concat, hc, hv]
    | none => simp [andFold, hf, List.getLast?_concat, hc]
  · intro e he
    match hc : isConst e with
    | some v =>
      have hv : v ≠ 0 := by intro h; exact he (h ▸ hc)
      simp [mulFold, hf, List.getLast?_concat, hc, hv]
    | none => simp [mulFold, hf, List.getLast?_concat, hc]
  · intro e he
    match hc : isConst e with
    | some v =>
      have hv : v ≠ allOnes w := by intro h; exact he (h ▸ hc)
      simp [orFold, hf, List.getLast?_concat, hc, hv]
    | none => simp [orFold, hf, List.getLast?_concat, hc]

theorem annulment_folds_witness :
    andFold [.wire 0, .const 0] = some (.const 0) ∧
    mulFold [.wire 0, .const 0] = some (.const 0) ∧
    orFold 8 [.wire 0, .const 255] = some (.const 255) ∧
    andFold [.const 0, .wire 1] = none :=
  have h := annulment_folds 8 [.wire 0] (by decide)
  have h2 := annulment_folds 8 [.const 0] (by decide)
  ⟨h.1, h.2.1, h.2.2.1, h2.2.2.2.1 (.wire 1) (by decide)⟩

/-- C7: the structural verifiers are exact predicates returning
recoverable diagnostics: sign/zero extension verification succeeds iff
the result width strictly exceeds the operand width, extract verification
succeeds iff `lowBit + resultWidth ≤ srcWidth` (for widths at least 1),
and each failure is reported as a diagnostic error value. -/
theorem verify_ext_extract (srcW dstW lowBit : Nat) (hd : 1 ≤ dstW) :
    (verifyExtOp srcW dstW = .ok () ↔ srcW < dstW) ∧
    (¬ srcW < dstW →
      verifyExtOp srcW dstW = .error "extension must increase bitwidth of operand") ∧
    (verifyExtractOp srcW dstW lowBit = .ok () ↔ lowBit + dstW ≤ srcW) ∧
    (¬ lowBit + dstW ≤ srcW →
      verifyExtractOp srcW dstW lowBit = .error "from bit too large for input") := by
  refine ⟨⟨fun h => ?_, fun h => ?_⟩, fun h => ?_, ⟨fun h => ?_, fun h => ?_⟩, fun h => ?_⟩
  · by_cases hc : srcW ≥ dstW
    · simp [verifyExtOp, hc] at h
    · omega
  · have hc : ¬ srcW ≥ dstW := by omega
    simp [verifyExtOp, hc]
  · have hc : srcW ≥ dstW := by omega
    simp [verifyExtOp, hc]
  · by_cases hc : lowBit ≥ srcW ∨ srcW - lowBit < dstW
    · simp [verifyExtractOp, hc] at h
    · omega
  · have hc : ¬ (lowBit ≥ srcW ∨ srcW - lowBit < dstW) := by omega
    simp [verifyExtractOp, hc]
  · have hc : lowBit ≥ srcW ∨ srcW - lowBit < dstW := by omega
    simp [verifyExtractOp, hc]

theorem verify_ext_extract_witness :
    (verifyExtOp 4 8 = .ok () ↔ (4 : Nat) < 8) ∧
    (verifyExtractOp 8 4 2 = .ok () ↔ (2 : Nat) + 4 ≤ 8) :=
  have h := verify_ext_extract 4 8 0 (by decide)
  have h2 := verify_ext_extract 8 4 2 (by decide)
  ⟨h.1, h2.2.2.1⟩

/-- C9: the EXTRACT full-width fold checks only type equality; under the
verifier precondition `lowBit + resultWidth ≤ srcWidth` an equal-width
extract forces `lowBit = 0`, so returning the operand unchanged agrees
with `(operand >> lowBit)` truncated to the result width; without the
precondition the equal-width fold is not value-correct (`srcW = dstW = 2`,
`lowBit = 1`, operand `2`). -/
theorem extract_fullwidth_fold (srcW dstW lowBit : Nat) (input : Expr)
    (heq : srcW = dstW) (hpre : lowBit + dstW ≤ srcW) (hd : 1 ≤ dstW) :
    extractFold srcW dstW lowBit input = some input ∧
    lowBit = 0 ∧
    (∀ v, v < 2 ^ srcW → (v >>> lowBit) % 2 ^ dstW = v) ∧
    extractFold 2 2 1 (.const 2) = some (.const 2) ∧
    (2 >>> 1) % 2 ^ 2 ≠ 2 := by
  have hlb : lowBit = 0 := by omega
  refine ⟨by simp [extractFold, heq], hlb, ?_, by decide, by decide⟩
  intro v hv
  subst heq
  subst hlb
  simpa using Nat.mod_eq_of_lt hv

theorem extract_fullwidth_fold_witness :
    extractFold 8 8 0 (.wire 3) = some (.wire 3) ∧
    (∀ v, v < 2 ^ 8 → (v >>> 0) % 2 ^ 8 = v) :=
  have h := extract_fullwidth_fold 8 8 0 (.wire 3) rfl (by decide) (by decide)
  ⟨h.1, h.2.2.1⟩

/-- C3: a 2-operand MUL whose last operand is the power-of-two constant
`2 ^ k` is rewritten — before any common rule, so identity elimination is
never reached for a 2-operand multiply by `1 = 2 ^ 0` — into a
single-operand MUL wrapping `shl(x, k)`, which the MUL fold immediately
collapses to the shift itself on the next pass; hence the overall
simplification of `mul(x, 2 ^ k)` reduces to `shl(x, k)` for `k < w`. -/
theorem mul_pow2_to_shift (w k : Nat) (ou : Expr → Bool) (x : Expr)
    (hk : k < w) :
    simplifyStep w ou .mul [x, .const (2 ^ k)] =
      some (.rewritten [.shl x (.const k)]) ∧
    simplifyStep w ou .mul [.shl x (.const k)] =
      some (.folded (.shl x (.const k))) ∧
    (∀ y : Expr, Expr.shl y (.const 0) ≠ y) := by
  have hlog : Nat.log2 (2 ^ k) = k := by
    simp [Nat.log2_eq_log_two, Nat.log_pow]
  have hpow : isPow2 (2 ^ k) = true := by
    simp [isPow2, hlog, (Nat.two_pow_pos k).ne']
  refine ⟨?_, ?_, fun y => ne_shl_self y (.const 0)⟩
  · have hfold : mulFold [x, .const (2 ^ k)] = none := by
      have : (2 : Nat) ^ k ≠ 0 := (Nat.two_pow_pos k).ne'
      simp [mulFold, List.getLast?, isConst, this]
    have hrw : mulRewrite w ou [x, .const (2 ^ k)] =
        some [.shl x (.const k)] := by
      have h2 : last2 [x, Expr.const (2 ^ k)] = some ([], x, .const (2 ^ k)) :=
        last2_append [] x (.const (2 ^ k))
      simp [mulRewrite, h2, mulRewriteCore, isConst, hpow, hlog]
    simp [simplifyStep, vopFold, vopRewrite, hfold, hrw]
  · simp [simplifyStep, vopFold, mulFold]

theorem mul_pow2_to_shift_witness :
    simplifyStep 8 ouFalse .mul [.wire 0, .const 8] =
      some (.rewritten [.shl (.wire 0) (.const 3)]) ∧
    simplifyStep 8 ouFalse .mul [.shl (.wire 0) (.const 3)] =
      some (.folded (.shl (.wire 0) (.const 3))) :=
  ⟨(mul_pow2_to_shift 8 3 ouFalse (.wire 0) (by decide)).1,
   (mul_pow2_to_shift 8 3 ouFalse (.wire 0) (by decide)).2.1⟩

/-- C5: XOR idempotence is split between fold and rewrite: a 2-operand
XOR of one node with itself is handled by the fold (to constant 0), so
the canonicalization driver never reaches the rewrite pattern for it,
while the pattern's rule that drops both of the last two identical
operands acts on nodes with at least 3 operands. -/
theorem xor_idempotence_split (w : Nat) (ou : Expr → Bool) (x a : Expr)
    (front : List Expr) (hf : front ≠ []) (ha : isConst a ≠ some 0) :
    simplifyStep w ou .xor [x, x] = some (.folded (.const 0)) ∧
    xorRewrite w ou (front ++ [a, a]) = some front := by
  constructor
  · simp [simplifyStep, vopFold, xorFold, List.getLast?]
  · match hc : isConst a with
    | some v =>
      have hv : v ≠ 0 := by intro h; exact ha (h ▸ hc)
      simp [xorRewrite, last2_append, xorRewriteCore, hc, hv]
    | none => simp [xorRewrite, last2_append, xorRewriteCore, hc]

theorem xor_idempotence_split_witness :
    simplifyStep 8 ouFalse .xor [.wire 1, .wire 1] =
      some (.folded (.const 0)) ∧
    xorRewrite 8 ouFalse [.wire 0, .wire 1, .wire 1] = some [.wire 0] :=
  have h := xor_idempotence_split 8 ouFalse (.wire 1) (.wire 1) [.wire 0]
    (by decide) (by decide)
  ⟨h.1, h.2⟩

/-- C6: the ADD-specific rules compare only the operand immediately
preceding the last: `add(..., x, shl(x, c))` with constant shift `c`
becomes `add(..., mul(x, (1 << c) + 1))`, `add(..., x, mul(x, c))` with a
2-operand multiply and constant `c` becomes `add(..., mul(x, c + 1))`,
and when `x` appears earlier but not immediately before the last operand
neither rule fires. -/
theorem add_shl_mul_rules (w : Nat) (ou : Expr → Bool) (front : List Expr)
    (x : Expr) (c : Nat) :
    addRewrite w ou (front ++ [x, .shl x (.const c)]) =
      some (front ++ [.vop .mul [x, .const ((1 <<< c + 1) % 2 ^ w)]]) ∧
    addRewrite w ou (front ++ [x, .vop .mul [x, .const c]]) =
      some (front ++ [.vop .mul [x, .const ((c + 1) % 2 ^ w)]]) ∧
    addRewrite w ouFalse [.wire 0, .wire 1, .shl (.wire 0) (.const c)] = none ∧
    addRewrite w ouFalse [.wire 0, .wire 1, .vop .mul [.wire 0, .const c]] = none := by
  refine ⟨?_, ?_, ?_, ?_⟩
  · have hne : x ≠ Expr.shl x (.const c) :=
      fun h => ne_shl_self x (.const c) h.symm
    simp [addRewrite, last2_append, addRewriteCore, isConst, hne]
  · have hne : x ≠ Expr.vop .mul [x, .const c] :=
      fun h => ne_mul_self x (.const c) h.symm
    simp [addRewrite, last2_append, addRewriteCore, isConst, hne]
  · have h2 : last2 [Expr.wire 0, .wire 1, .shl (.wire 0) (.const c)] =
        some ([.wire 0], .wire 1, .shl (.wire 0) (.const c)) :=
      last2_append [.wire 0] (.wire 1) (.shl (.wire 0) (.const c))
    simp [addRewrite, h2, addRewriteCore, isConst, tryFlattening_false, ouFalse]
  · have h2 : last2 [Expr.wire 0, .wire 1, .vop .mul [.wire 0, .const c]] =
        some ([.wire 0], .wire 1, .vop .mul [.wire 0, .const c]) :=
      last2_append [.wire 0] (.wire 1) (.vop .mul [.wire 0, .const c])
    simp [addRewrite, h2, addRewriteCore, isConst, tryFlattening_false, ouFalse]

/-! ## The one-step simplification relation and its termination -/

theorem isConst_eq_some {e : Expr} {v : Nat} (h : isConst e = some v) :
    e = .const v := by
  cases e <;> simp [isConst] at h
  rw [h]

theorem msize_le_of_mem {e : Expr} {l : List Expr} (h : e ∈ l) :
    msize e ≤ msizeL l := by
  induction l with
  | nil => cases h
  | cons x xs ih =>
    rcases List.mem_cons.mp h with h | h
    · subst h; simp only [msizeL]; omega
    · have := ih h; simp only [msizeL]; omega

theorem mem_msize_lt {e : Expr} {l : List Expr} (op : VOp) (h : e ∈ l) :
    msize e < msize (.vop op l) := by
  have h1 := msize_le_of_mem h
  simp only [msize]
  omega

theorem andFold_mem {l : List Expr} {e : Expr} (h : andFold l = some e) :
    e ∈ l := by
  unfold andFold at h
  split at h
  · exact List.mem_of_mem_head? h
  · split at h
    · split at h
      · split at h
        · injection h with h2
          subst h2
          exact List.mem_of_mem_getLast? (by assumption)
        · cases h
      · cases h
    · cases h

theorem mulFold_mem {l : List Expr} {e : Expr} (h : mulFold l = some e) :
    e ∈ l := by
  unfold mulFold at h
  split at h
  · exact List.mem_of_mem_head? h
  · split at h
    · split at h
      · split at h
        · injection h with h2
          subst h2
          exact List.mem_of_mem_getLast? (by assumption)
        · cases h
      · cases h
    · cases h

theorem orFold_mem {w : Nat} {l : List Expr} {e : Expr}
    (h : orFold w l = some e) : e ∈ l := by
  unfold orFold at h
  split at h
  · exact List.mem_of_mem_head? h
  · split at h
    · split at h
      · split at h
        · injection h with h2
          subst h2
          exact List.mem_of_mem_getLast? (by assumption)
        · cases h
      · cases h
    · cases h

theorem addFold_mem {l : List Expr} {e : Expr} (h : addFold l = some e) :
    e ∈ l := by
  unfold addFold at h
  split at h
  · exact List.mem_of_mem_head? h
  · cases h

theorem xorFold_cases {l : List Expr} {e : Expr} (h : xorFold l = some e) :
    e ∈ l ∨ e = .const 0 := by
  unfold xorFold at h
  split at h
  · exact Or.inl (List.mem_of_mem_head? h)
  · split at h
    · injection h with h2; exact Or.inr h2.symm
    · cases h

/-- Every successful fold strictly decreases the measure. -/
theorem vopFold_msize_lt {w : Nat} {op : VOp} {l : List Expr} {e : Expr}
    (h : vopFold w op l = some e) : msize e < msize (.vop op l) := by
  cases op <;> simp only [vopFold] at h
  case and => exact mem_msize_lt _ (andFold_mem h)
  case or => exact mem_msize_lt _ (orFold_mem h)
  case add => exact mem_msize_lt _ (addFold_mem h)
  case mul => exact mem_msize_lt _ (mulFold_mem h)
  case xor =>
    rcases xorFold_cases h with hm | he
    · exact mem_msize_lt _ hm
    · subst he
      have h1 : l ≠ [] := by
        intro hnil
        subst hnil
        simp [xorFold] at h
      have := msizeL_pos h1
      simp only [msize]
      omega

/-- Flattening strictly decreases the weighted operand-list measure. -/
theorem tryFlattening_lt {op : VOp} {ou : Expr → Bool} {l l2 : List Expr}
    (h : tryFlattening op ou l = some l2) :
    msizeL l2 + op.wt * l2.length < msizeL l + op.wt * l.length := by
  induction l generalizing l2 with
  | nil => cases h
  | cons x rest ih =>
    unfold tryFlattening at h
    split at h
    · cases hA : asOp op x with
      | some xs =>
        rw [hA] at h
        injection h with h2
        subst h2
        have hx := asOp_eq_some hA
        subst hx
        have := wt_pos op
        simp only [msize, msizeL, msizeL_append, List.length_append,
          List.length_cons, Nat.mul_add, Nat.mul_one]
        omega
      | none =>
        rw [hA] at h
        rw [Option.map_eq_some'] at h
        obtain ⟨l3, h3, hl3⟩ := h
        subst hl3
        have := ih h3
        simp only [msizeL, List.length_cons, Nat.mul_add, Nat.mul_one] at *
        omega
    · rw [Option.map_eq_some'] at h
      obtain ⟨l3, h3, hl3⟩ := h
      subst hl3
      have := ih h3
      simp only [msizeL, List.length_cons, Nat.mul_add, Nat.mul_one] at *
      omega

theorem andRewrite_wt_lt {w : Nat} {ou : Expr → Bool} {l l2 : List Expr}
    (h : andRewrite w ou l = some l2) :
    msizeL l2 + VOp.wt .and * l2.length < msizeL l + VOp.wt .and * l.length := by
  unfold andRewrite at h
  cases hl : last2 l with
  | none => rw [hl] at h; cases h
  | some t =>
    obtain ⟨front, a, b⟩ := t
    simp only [hl] at h
    have hsub := last2_eq_some hl
    subst hsub
    unfold andRewriteCore at h
    have hb := msize_pos b
    have ha := msize_pos a
    split at h
    · injection h with h2
      subst h2
      simp only [msizeL_append, msizeL, List.length_append, List.length_cons,
        List.length_nil, VOp.wt, Nat.mul_add, Nat.mul_one]
      omega
    · split at h
      · injection h with h2
        subst h2
        simp only [msizeL_append, msizeL, List.length_append, List.length_cons,
          List.length_nil, VOp.wt, Nat.mul_add, Nat.mul_one]
        omega
      · split at h
        · injection h with h2
          subst h2
          simp only [msizeL_append, msizeL, msize, List.length_append,
            List.length_cons, List.length_nil, VOp.wt, Nat.mul_add, Nat.mul_one]
          omega
        · exact tryFlattening_lt h

theorem orRewrite_wt_lt {w : Nat} {ou : Expr → Bool} {l l2 : List Expr}
    (h : orRewrite w ou l = some l2) :
    msizeL l2 + VOp.wt .or * l2.length < msizeL l + VOp.wt .or * l.length := by
  unfold orRewrite at h
  cases hl : last2 l with
  | none => rw [hl] at h; cases h
  | some t =>
    obtain ⟨front, a, b⟩ := t
    simp only [hl] at h
    have hsub := last2_eq_some hl
    subst hsub
    unfold orRewriteCore at h
    have hb := msize_pos b
    have ha := msize_pos a
    split at h
    · injection h with h2
      subst h2
      simp only [msizeL_append, msizeL, List.length_append, List.length_cons,
        List.length_nil, VOp.wt, Nat.mul_add, Nat.mul_one]
      omega
    · split at h
      · injection h with h2
        subst h2
        simp only [msizeL_append, msizeL, List.length_append, List.length_cons,
          List.length_nil, VOp.wt, Nat.mul_add, Nat.mul_one]
        omega
      · split at h
        · injection h with h2
          subst h2
          simp only [msizeL_append, msizeL, msize, List.length_append,
            List.length_cons, List.length_nil, VOp.wt, Nat.mul_add, Nat.mul_one]
          omega
        · exact tryFlattening_lt h

theorem xorRewrite_wt_lt {w : Nat} {ou : Expr → Bool} {l l2 : List Expr}
    (h : xorRewrite w ou l = some l2) :
    msizeL l2 + VOp.wt .xor * l2.length < msizeL l + VOp.wt .xor * l.length := by
  unfold xorRewrite at h
  cases hl : last2 l with
  | none => rw [hl] at h; cases h
  | some t =>
    obtain ⟨front, a, b⟩ := t
    simp only [hl] at h
    have hsub := last2_eq_some hl
    subst hsub
    unfold xorRewriteCore at h
    have hb := msize_pos b
    have ha := msize_pos a
    split at h
    · injection h with h2
      subst h2
      simp only [msizeL_append, msizeL, List.length_append, List.length_cons,
        List.length_nil, VOp.wt, Nat.mul_add, Nat.mul_one]
      omega
    · split at h
      · injection h with h2
        subst h2
        simp only [msizeL_append, msizeL, List.length_append, List.length_cons,
          List.length_nil, VOp.wt, Nat.mul_add, Nat.mul_one]
        omega
      · split at h
        · injection h with h2
          subst h2
          simp only [msizeL_append, msizeL, msize, List.length_append,
            List.length_cons, List.length_nil, VOp.wt, Nat.mul_add, Nat.mul_one]
          omega
        · exact tryFlattening_lt h

theorem addRewrite_wt_lt {w : Nat} {ou : Expr → Bool} {l l2 : List Expr}
    (h : addRewrite w ou l = some l2) :
    msizeL l2 + VOp.wt .add * l2.length < msizeL l + VOp.wt .add * l.length := by
  unfold addRewrite at h
  cases hl : last2 l with
  | none => rw [hl] at h; cases h
  | some t =>
    obtain ⟨front, a, b⟩ := t
    simp only [hl] at h
    have hsub := last2_eq_some hl
    subst hsub
    unfold addRewriteCore at h
    have hb := msize_pos b
    have ha := msize_pos a
    split at h
    · -- identity
      injection h with h2
      subst h2
      simp only [msizeL_append, msizeL, List.length_append, List.length_cons,
        List.length_nil, VOp.wt, Nat.mul_add, Nat.mul_one]
      omega
    · split at h
      · -- constant pair
        injection h with h2
        subst h2
        simp only [msizeL_append, msizeL, msize, List.length_append,
          List.length_cons, List.length_nil, VOp.wt, Nat.mul_add, Nat.mul_one]
        omega
      · split at h
        · -- x + x -> shl(x, 1)
          rename_i hab
          subst hab
          injection h with h2
          subst h2
          simp only [msizeL_append, msizeL, msize, List.length_append,
            List.length_cons, List.length_nil, VOp.wt, Nat.mul_add, Nat.mul_one]
          omega
        · -- match on the defining op of b
          split at h
          · -- b = shl x c
            split at h
            · split at h
              · -- x + shl(x, c) -> mul(x, (1 << c) + 1)
                rename_i x c hj1 hj2 hj3 hj4 v hc hx
                have hcc := isConst_eq_some hc
                subst hcc
                subst hx
                injection h with h2
                subst h2
                simp only [msizeL_append, msizeL, msize, List.length_append,
                  List.length_cons, List.length_nil, VOp.wt, Nat.mul_add,
                  Nat.mul_one]
                omega
              · exact tryFlattening_lt h
            · exact tryFlattening_lt h
          · -- b = mul [x, c]
            split at h
            · split at h
              · -- x + mul(x, c) -> mul(x, c + 1)
                rename_i x c hj1 hj2 hj3 hj4 v hc hx
                have hcc := isConst_eq_some hc
                subst hcc
                subst hx
                injection h with h2
                subst h2
                simp only [msizeL_append, msizeL, msize, List.length_append,
                  List.length_cons, List.length_nil, VOp.wt, Nat.mul_add,
                  Nat.mul_one]
                omega
              · exact tryFlattening_lt h
            · exact tryFlattening_lt h
          · exact tryFlattening_lt h

theorem mulRewrite_wt_lt {w : Nat} {ou : Expr → Bool} {l l2 : List Expr}
    (h : mulRewrite w ou l = some l2) :
    msizeL l2 + VOp.wt .mul * l2.length < msizeL l + VOp.wt .mul * l.length := by
  unfold mulRewrite at h
  cases hl : last2 l with
  | none => rw [hl] at h; cases h
  | some t =>
    obtain ⟨front, a, b⟩ := t
    simp only [hl] at h
    have hsub := last2_eq_some hl
    subst hsub
    unfold mulRewriteCore at h
    have hb := msize_pos b
    have ha := msize_pos a
    split at h
    · -- b is a constant v
      rename_i v hc
      have hcc := isConst_eq_some hc
      subst hcc
      split at h
      · -- power-of-two: mul(x, 2^k) -> mul(shl(x, k))
        rename_i hcond
        have hfront : front = [] := by
          have := (Bool.and_eq_true _ _).mp hcond
          exact List.isEmpty_iff.mp this.1
        subst hfront
        injection h with h2
        subst h2
        simp only [msizeL_append, msizeL, msize, List.length_append,
          List.length_cons, List.length_nil, List.nil_append, VOp.wt,
          Nat.mul_add, Nat.mul_one]
        omega
      · split at h
        · -- identity
          injection h with h2
          subst h2
          simp only [msizeL_append, msizeL, msize, List.length_append,
            List.length_cons, List.length_nil, VOp.wt, Nat.mul_add, Nat.mul_one]
          omega
        · split at h
          · -- constant pair
            injection h with h2
            subst h2
            simp only [msizeL_append, msizeL, msize, List.length_append,
              List.length_cons, List.length_nil, VOp.wt, Nat.mul_add,
              Nat.mul_one]
            omega
          · exact tryFlattening_lt h
    · exact tryFlattening_lt h

/-- Every successful rewrite strictly decreases the weighted operand-list
measure of its node. -/
theorem vopRewrite_wt_lt {w : Nat} {ou : Expr → Bool} {op : VOp}
    {l l2 : List Expr} (h : vopRewrite w ou op l = some l2) :
    msizeL l2 + op.wt * l2.length < msizeL l + op.wt * l.length := by
  cases op <;> simp only [vopRewrite] at h
  case and => exact andRewrite_wt_lt h
  case or => exact orRewrite_wt_lt h
  case xor => exact xorRewrite_wt_lt h
  case add => exact addRewrite_wt_lt h
  case mul => exact mulRewrite_wt_lt h

/-- One simplification step anywhere in an expression: a successful fold
or a successful rewrite applied at any node (the host driver applies them
to arbitrary nodes of the graph until fixed point). -/
inductive Step (w : Nat) (ou : Expr → Bool) : Expr → Expr → Prop where
  | fold {op : VOp} {l : List Expr} {e : Expr} :
      vopFold w op l = some e → Step w ou (.vop op l) e
  | rew {op : VOp} {l l2 : List Expr} :
      vopRewrite w ou op l = some l2 → Step w ou (.vop op l) (.vop op l2)
  | shlLeft {a a2 b : Expr} :
      Step w ou a a2 → Step w ou (.shl a b) (.shl a2 b)
  | shlRight {a b b2 : Expr} :
      Step w ou b b2 → Step w ou (.shl a b) (.shl a b2)
  | arg {x x2 : Expr} {op : VOp} {l1 l2 : List Expr} :
      Step w ou x x2 →
      Step w ou (.vop op (l1 ++ x :: l2)) (.vop op (l1 ++ x2 :: l2))

/-- Each step strictly decreases the weighted size measure. -/
theorem step_msize_lt {w : Nat} {ou : Expr → Bool} {e e2 : Expr}
    (h : Step w ou e e2) : msize e2 < msize e := by
  induction h with
  | fold hf => exact vopFold_msize_lt hf
  | rew hr =>
    have := vopRewrite_wt_lt hr
    simp only [msize]
    omega
  | shlLeft _ ih => simp only [msize]; omega
  | shlRight _ ih => simp only [msize]; omega
  | arg _ ih =>
    simp only [msize, msizeL_append, msizeL, List.length_append,
      List.length_cons, Nat.mul_add, Nat.mul_one]
    omega

/-- C8: repeated application of the fold and rewrite rules to any
expression terminates: the one-step simplification relation (folds and
rewrites applied at arbitrary positions, including operand flattening,
which can grow the parent operand list) admits no infinite chain, because
every firing rule strictly decreases a weighted size measure. -/
theorem simplifier_terminates (w : Nat) (ou : Expr → Bool) :
    WellFounded (fun a b : Expr => Step w ou b a) := by
  have hwf : WellFounded (InvImage (fun m n : Nat => m < n) msize) :=
    InvImage.wf msize (Nat.lt_wfRel.wf)
  exact Subrelation.wf (fun h => step_msize_lt h) hwf

/-! ## Width preservation -/

mutual

/-- All nodes of the expression have bit width `w`: constants fit in `w`
bits, wires have declared width `ww i = w`, `shl` operands and all
variadic operands share the node's width (the dialect invariant). -/
def widthOk (ww : Nat → Nat) (w : Nat) : Expr → Bool
  | .const v => decide (v < 2 ^ w)
  | .wire i => ww i == w
  | .shl a b => widthOk ww w a && widthOk ww w b
  | .vop _ l => widthOkL ww w l

/-- All elements of an operand list have width `w`. -/
def widthOkL (ww : Nat → Nat) (w : Nat) : List Expr → Bool
  | [] => true
  | x :: xs => widthOk ww w x && widthOkL ww w xs

end

theorem widthOkL_append (ww : Nat → Nat) (w : Nat) (l1 l2 : List Expr) :
    widthOkL ww w (l1 ++ l2) = (widthOkL ww w l1 && widthOkL ww w l2) := by
  induction l1 with
  | nil => simp [widthOkL]
  | cons x xs ih => simp [widthOkL, ih, Bool.and_assoc]

theorem widthOkL_mem {ww : Nat → Nat} {w : Nat} {l : List Expr} {e : Expr}
    (hl : widthOkL ww w l = true) (h : e ∈ l) : widthOk ww w e = true := by
  induction l with
  | nil => cases h
  | cons x xs ih =>
    simp only [widthOkL, Bool.and_eq_true] at hl
    rcases List.mem_cons.mp h with h | h
    · subst h; exact hl.1
    · exact ih hl.2 h

/-- Folds return nodes of the operation's own width. -/
theorem vopFold_widthOk {w : Nat} {ww : Nat → Nat} {op : VOp}
    {l : List Expr} {e : Expr} (h : vopFold w op l = some e)
    (hl : widthOkL ww w l = true) : widthOk ww w e = true := by
  cases op <;> simp only [vopFold] at h
  case and => exact widthOkL_mem hl (andFold_mem h)
  case or => exact widthOkL_mem hl (orFold_mem h)
  case add => exact widthOkL_mem hl (addFold_mem h)
  case mul => exact widthOkL_mem hl (mulFold_mem h)
  case xor =>
    rcases xorFold_cases h with hm | he
    · exact widthOkL_mem hl hm
    · subst he
      simp [widthOk, Nat.two_pow_pos]

/-- Flattening splices operands of the same width. -/
theorem tryFlattening_widthOk {op : VOp} {ou : Expr → Bool} {ww : Nat → Nat}
    {w : Nat} {l l2 : List Expr} (h : tryFlattening op ou l = some l2)
    (hl : widthOkL ww w l = true) : widthOkL ww w l2 = true := by
  induction l generalizing l2 with
  | nil => cases h
  | cons x rest ih =>
    simp only [widthOkL, Bool.and_eq_true] at hl
    unfold tryFlattening at h
    split at h
    · cases hA : asOp op x with
      | some xs =>
        rw [hA] at h
        injection h with h2
        subst h2
        have hx := asOp_eq_some hA
        subst hx
        simp only [widthOk] at hl
        simp only [widthOkL_append, Bool.and_eq_true]
        exact ⟨hl.1, hl.2⟩
      | none =>
        rw [hA] at h
        rw [Option.map_eq_some'] at h
        obtain ⟨l3, h3, hl3⟩ := h
        subst hl3
        simp only [widthOkL, Bool.and_eq_true]
        exact ⟨hl.1, ih h3 hl.2⟩
    · rw [Option.map_eq_some'] at h
      obtain ⟨l3, h3, hl3⟩ := h
      subst hl3
      simp only [widthOkL, Bool.and_eq_true]
      exact ⟨hl.1, ih h3 hl.2⟩

theorem andRewrite_widthOk {w : Nat} {ww : Nat → Nat} {ou : Expr → Bool}
    {l l2 : List Expr} (h : andRewrite w ou l = some l2)
    (hl : widthOkL ww w l = true) : widthOkL ww w l2 = true := by
  unfold andRewrite at h
  cases hl2 : last2 l with
  | none => rw [hl2] at h; cases h
  | some t =>
    obtain ⟨front, a, b⟩ := t
    simp only [hl2] at h
    have hsub := last2_eq_some hl2
    subst hsub
    have hl0 := hl
    simp only [widthOkL_append, widthOkL, Bool.and_eq_true, and_true] at hl
    obtain ⟨hfr, hwa, hwb⟩ := hl
    unfold andRewriteCore at h
    split at h
    · injection h with h2; subst h2
      simp only [widthOkL_append, widthOkL, Bool.and_eq_true, and_true]
      exact ⟨hfr, hwa⟩
    · split at h
      · injection h with h2; subst h2
        simp only [widthOkL_append, widthOkL, Bool.and_eq_true, and_true]
        exact ⟨hfr, hwa⟩
      · split at h
        · rename_i v v2 hcb hca
          injection h with h2; subst h2
          have hb2 := isConst_eq_some hcb
          subst hb2
          simp only [widthOk, decide_eq_true_eq] at hwb
          simp only [widthOkL_append, widthOkL, Bool.and_eq_true, and_true,
            widthOk, decide_eq_true_eq]
          exact ⟨hfr, lt_of_le_of_lt Nat.and_le_left hwb⟩
        · exact tryFlattening_widthOk h hl0

theorem orRewrite_widthOk {w : Nat} {ww : Nat → Nat} {ou : Expr → Bool}
    {l l2 : List Expr} (h : orRewrite w ou l = some l2)
    (hl : widthOkL ww w l = true) : widthOkL ww w l2 = true := by
  unfold orRewrite at h
  cases hl2 : last2 l with
  | none => rw [hl2] at h; cases h
  | some t =>
    obtain ⟨front, a, b⟩ := t
    simp only [hl2] at h
    have hsub := last2_eq_some hl2
    subst hsub
    have hl0 := hl
    simp only [widthOkL_append, widthOkL, Bool.and_eq_true, and_true] at hl
    obtain ⟨hfr, hwa, hwb⟩ := hl
    unfold orRewriteCore at h
    split at h
    · injection h with h2; subst h2
      simp only [widthOkL_append, widthOkL, Bool.and_eq_true, and_true]
      exact ⟨hfr, hwa⟩
    · split at h
      · injection h with h2; subst h2
        simp only [widthOkL_append, widthOkL, Bool.and_eq_true, and_true]
        exact ⟨hfr, hwa⟩
      · split at h
        · rename_i v v2 hcb hca
          injection h with h2; subst h2
          have hb2 := isConst_eq_some hcb
          have ha2 := isConst_eq_some hca
          subst hb2
          subst ha2
          simp only [widthOk, decide_eq_true_eq] at hwa hwb
          simp only [widthOkL_append, widthOkL, Bool.and_eq_true, and_true,
            widthOk, decide_eq_true_eq]
          exact ⟨hfr, Nat.or_lt_two_pow hwb hwa⟩
        · exact tryFlattening_widthOk h hl0

theorem xorRewrite_widthOk {w : Nat} {ww : Nat → Nat} {ou : Expr → Bool}
    {l l2 : List Expr} (h : xorRewrite w ou l = some l2)
    (hl : widthOkL ww w l = true) : widthOkL ww w l2 = true := by
  unfold xorRewrite at h
  cases hl2 : last2 l with
  | none => rw [hl2] at h; cases h
  | some t =>
    obtain ⟨front, a, b⟩ := t
    simp only [hl2] at h
    have hsub := last2_eq_some hl2
    subst hsub
    have hl0 := hl
    simp only [widthOkL_append, widthOkL, Bool.and_eq_true, and_true] at hl
    obtain ⟨hfr, hwa, hwb⟩ := hl
    unfold xorRewriteCore at h
    split at h
    · injection h with h2; subst h2
      simp only [widthOkL_append, widthOkL, Bool.and_eq_true, and_true]
      exact ⟨hfr, hwa⟩
    · split at h
      · injection h with h2; subst h2
        exact hfr
      · split at h
        · rename_i v v2 hcb hca
          injection h with h2; subst h2
          have hb2 := isConst_eq_some hcb
          have ha2 := isConst_eq_some hca
          subst hb2
          subst ha2
          simp only [widthOk, decide_eq_true_eq] at hwa hwb
          simp only [widthOkL_append, widthOkL, Bool.and_eq_true, and_true,
            widthOk, decide_eq_true_eq]
          exact ⟨hfr, Nat.xor_lt_two_pow hwb hwa⟩
        · exact tryFlattening_widthOk h hl0

theorem addRewrite_widthOk {w : Nat} {ww : Nat → Nat} {ou : Expr → Bool}
    {l l2 : List Expr} (hw : 1 ≤ w) (h : addRewrite w ou l = some l2)
    (hl : widthOkL ww w l = true) : widthOkL ww w l2 = true := by
  unfold addRewrite at h
  cases hl2 : last2 l with
  | none => rw [hl2] at h; cases h
  | some t =>
    obtain ⟨front, a, b⟩ := t
    simp only [hl2] at h
    have hsub := last2_eq_some hl2
    subst hsub
    have hl0 := hl
    simp only [widthOkL_append, widthOkL, Bool.and_eq_true, and_true] at hl
    obtain ⟨hfr, hwa, hwb⟩ := hl
    unfold addRewriteCore at h
    split at h
    · injection h with h2; subst h2
      simp only [widthOkL_append, widthOkL, Bool.and_eq_true, and_true]
      exact ⟨hfr, hwa⟩
    · split at h
      · -- constant pair
        injection h with h2; subst h2
        simp only [widthOkL_append, widthOkL, Bool.and_eq_true, and_true,
          widthOk, decide_eq_true_eq]
        exact ⟨hfr, Nat.mod_lt _ (Nat.two_pow_pos w)⟩
      · split at h
        · -- x + x -> shl(x, 1)
          injection h with h2; subst h2
          simp only [widthOkL_append, widthOkL, Bool.and_eq_true, and_true,
            widthOk, decide_eq_true_eq]
          exact ⟨hfr, hwb, Nat.one_lt_two_pow_iff.mpr (by omega)⟩
        · split at h
          · -- b = shl x c
            split at h
            · split at h
              · injection h with h2; subst h2
                simp only [widthOk, Bool.and_eq_true] at hwb
                simp only [widthOkL_append, widthOkL, Bool.and_eq_true,
                  and_true, widthOk, decide_eq_true_eq]
                exact ⟨hfr, hwb.1, Nat.mod_lt _ (Nat.two_pow_pos w)⟩
              · exact tryFlattening_widthOk h hl0
            · exact tryFlattening_widthOk h hl0
          · -- b = mul [x, c]
            split at h
            · split at h
              · injection h with h2; subst h2
                simp only [widthOk, widthOkL, Bool.and_eq_true, and_true] at hwb
                simp only [widthOkL_append, widthOkL, Bool.and_eq_true,
                  and_true, widthOk, decide_eq_true_eq]
                exact ⟨hfr, hwb.1, Nat.mod_lt _ (Nat.two_pow_pos w)⟩
              · exact tryFlattening_widthOk h hl0
            · exact tryFlattening_widthOk h hl0
          · exact tryFlattening_widthOk h hl0

theorem mulRewrite_widthOk {w : Nat} {ww : Nat → Nat} {ou : Expr → Bool}
    {l l2 : List Expr} (h : mulRewrite w ou l = some l2)
    (hl : widthOkL ww w l = true) : widthOkL ww w l2 = true := by
  unfold mulRewrite at h
  cases hl2 : last2 l with
  | none => rw [hl2] at h; cases h
  | some t =>
    obtain ⟨front, a, b⟩ := t
    simp only [hl2] at h
    have hsub := last2_eq_some hl2
    subst hsub
    have hl0 := hl
    simp only [widthOkL_append, widthOkL, Bool.and_eq_true, and_true] at hl
    obtain ⟨hfr, hwa, hwb⟩ := hl
    unfold mulRewriteCore at h
    cases hcb : isConst b with
    | none =>
      simp only [hcb] at h
      exact tryFlattening_widthOk h hl0
    | some v =>
      simp only [hcb] at h
      have hb2 := isConst_eq_some hcb
      subst hb2
      simp only [widthOk, decide_eq_true_eq] at hwb
      split at h
      · -- power-of-two multiply
        rename_i hcond
        injection h with h2; subst h2
        rw [Bool.and_eq_true] at hcond
        have hv0 : v ≠ 0 := by
          have h3 := hcond.2
          simp [isPow2] at h3
          exact h3.1
        simp only [widthOkL, widthOk, Bool.and_eq_true, and_true,
          decide_eq_true_eq]
        refine ⟨hwa, ?_⟩
        exact lt_trans ((Nat.log2_lt hv0).mpr hwb) (Nat.lt_two_pow w)
      · split at h
        · -- identity
          injection h with h2; subst h2
          simp only [widthOkL_append, widthOkL, Bool.and_eq_true, and_true]
          exact ⟨hfr, hwa⟩
        · cases hca : isConst a with
          | some v2 =>
            simp only [hca] at h
            injection h with h2; subst h2
            simp only [widthOkL_append, widthOkL, Bool.and_eq_true, and_true,
              widthOk, decide_eq_true_eq]
            exact ⟨hfr, Nat.mod_lt _ (Nat.two_pow_pos w)⟩
          | none =>
            simp only [hca] at h
            exact tryFlattening_widthOk h hl0

/-- Rewrites replace the operand list by one of the same width. -/
theorem vopRewrite_widthOk {w : Nat} {ww : Nat → Nat} {ou : Expr → Bool}
    {op : VOp} {l l2 : List Expr} (hw : 1 ≤ w)
    (h : vopRewrite w ou op l = some l2) (hl : widthOkL ww w l = true) :
    widthOkL ww w l2 = true := by
  cases op <;> simp only [vopRewrite] at h
  case and => exact andRewrite_widthOk h hl
  case or => exact orRewrite_widthOk h hl
  case xor => exact xorRewrite_widthOk h hl
  case add => exact addRewrite_widthOk hw h hl
  case mul => exact mulRewrite_widthOk h hl

/-- C10: width preservation is an invariant of every rewrite and fold:
each rule replaces the node with a new node of exactly the original
node's result width (all constants, shifts and multiplies it creates are
built at that width), so the bit width of every expression is unchanged
by any number of simplification steps. -/
theorem step_preserves_width (w : Nat) (ww : Nat → Nat) (ou : Expr → Bool)
    (e e2 : Expr) (hw : 1 ≤ w) (hs : Step w ou e e2)
    (he : widthOk ww w e = true) : widthOk ww w e2 = true := by
  induction hs with
  | fold hf => exact vopFold_widthOk hf (by simpa [widthOk] using he)
  | rew hr =>
    simp only [widthOk] at he ⊢
    exact vopRewrite_widthOk hw hr he
  | shlLeft hs ih =>
    simp only [widthOk, Bool.and_eq_true] at he ⊢
    exact ⟨ih he.1, he.2⟩
  | shlRight hs ih =>
    simp only [widthOk, Bool.and_eq_true] at he ⊢
    exact ⟨he.1, ih he.2⟩
  | arg hs ih =>
    simp only [widthOk, widthOkL_append, widthOkL, Bool.and_eq_true] at he ⊢
    exact ⟨he.1, ih he.2.1, he.2.2⟩

theorem step_preserves_width_witness :
    widthOk (fun _ => 2) 2 (.vop .and [.wire 0]) = true :=
  step_preserves_width 2 (fun _ => 2) ouFalse (.vop .and [.wire 0, .const 3])
    (.vop .and [.wire 0]) (by decide) (Step.rew (by decide)) (by decide)

end RTL
